import Mathlib

/-!
Verification of the npm-template scaffolding CLI (src/index.mjs).

The source is a small Node.js program.  We shallowly embed its pure string
functions and its orchestration flow in Lean:

* JS strings are modelled as Lean `String` / `List Char` (Unicode scalar
  values).  The program only distinguishes characters by membership in small
  ASCII character classes, so this model is faithful for the properties below;
  `toLowerCase` is modelled on the ASCII range (the only range whose image can
  intersect the classes `[a-z0-9-~]` used by the program).
* The validation regular expression is embedded literally as a
  `RegularExpression Char` term and executed with Mathlib's verified `rmatch`.
* The filesystem-touching flow of `main` is modelled as a pure state
  transformer over an explicit filesystem value, with the outcomes of the
  effectful steps (copy success, installer exit code, files the installer
  creates) supplied by an explicit oracle.
-/

open RegularExpression

/-- The consecutive characters with code points `lo`, `lo+1`, ..., `lo+n-1`;
used to spell out the character ranges `a-z` and `0-9` of the source regexes. -/
def charRange (lo n : Nat) : List Char :=
  (List.range n).map (fun i => Char.ofNat (lo + i))

/-- Characters matched by the regex range `a-z`. -/
def lowerChars : List Char := charRange 97 26

/-- Characters matched by the regex range `0-9`. -/
def digitChars : List Char := charRange 48 10

/-- The character class `[a-z0-9-*~]` (first character of the scope segment in
the `isValidPackageName` regex, src/index.mjs line 25). -/
def scopeHeadChars : List Char := lowerChars ++ digitChars ++ ['-', '*', '~']

/-- The character class `[a-z0-9-*._~]` (later characters of the scope
segment). -/
def scopeRestChars : List Char := lowerChars ++ digitChars ++ ['-', '*', '.', '_', '~']

/-- The character class `[a-z0-9-~]` (first character of the name segment);
also the class kept by `toValidPackageName`. -/
def nameHeadChars : List Char := lowerChars ++ digitChars ++ ['-', '~']

/-- The character class `[a-z0-9-._~]` (later characters of the name
segment). -/
def nameRestChars : List Char := lowerChars ++ digitChars ++ ['-', '.', '_', '~']

/-- A regex character class: the union of the single-character regexes for the
listed characters. -/
def cls : List Char → RegularExpression Char
  | [] => 0
  | c :: cs => RegularExpression.char c + cls cs

/-- The anchored regex of `isValidPackageName` (src/index.mjs lines 25-27):
`^(?:@[a-z0-9-*~][a-z0-9-*._~]*\/)?[a-z0-9-~][a-z0-9-._~]*$`.
`(?:...)?` is `1 + r`, juxtaposition is `*`, Kleene star is `.star`. -/
def packageNameRegex : RegularExpression Char :=
  (1 + (RegularExpression.char '@' * cls scopeHeadChars *
        (cls scopeRestChars).star * RegularExpression.char '/')) *
  (cls nameHeadChars * (cls nameRestChars).star)

/-- `isValidPackageName` (src/index.mjs lines 24-28): tests the anchored regex
against the whole string. -/
def isValidPackageName (s : String) : Bool :=
  packageNameRegex.rmatch s.toList

/-- A nonempty segment whose first character lies in `hd` and whose remaining
characters lie in `rst` (one `[class][class]*` block of the regex). -/
def isSegment (hd rst : List Char) : List Char → Bool
  | [] => false
  | c :: cs => decide (c ∈ hd) && cs.all (fun d => decide (d ∈ rst))

/-- Split a character list at its first `'/'`: `some (before, after)` when a
`'/'` occurs, `none` otherwise. -/
def splitAtSlash : List Char → Option (List Char × List Char)
  | [] => none
  | c :: cs =>
    if c = '/' then some ([], cs)
    else (splitAtSlash cs).map (fun p => (c :: p.1, p.2))

/-- The scoped alternative of the package grammar: `@`, a scope segment, `/`,
then a name segment.  Since no character class contains `/`, the scope
segment necessarily ends at the first `/`. -/
def scopedPart (sh sr nh nr : List Char) : List Char → Bool
  | [] => false
  | c :: rest =>
    (c == '@') &&
      match splitAtSlash rest with
      | some p => isSegment sh sr p.1 && isSegment nh nr p.2
      | none => false

/-- Structural description of the language of a package-name shaped regex with
scope classes `sh`/`sr` and name classes `nh`/`nr`: either a bare name
segment, or the scoped alternative. -/
def packageGrammar (sh sr nh nr : List Char) (l : List Char) : Bool :=
  isSegment nh nr l || scopedPart sh sr nh nr l

/-- The structural grammar of the source regex of `isValidPackageName`,
with the character classes of src/index.mjs line 25. -/
def codePackageGrammar (s : String) : Bool :=
  packageGrammar scopeHeadChars scopeRestChars nameHeadChars nameRestChars s.toList

/-- Modelled from the spec (§3): "optional `@scope/` prefix, then lowercase
alphanumerics, `-`, `.`, `~`, no leading `.`/`_` in the unscoped segment".
Reading as charitably as possible: since "no leading `.`/`_`" only makes sense
when `_` may occur in non-leading positions, the segment alphabet is taken to
be lowercase alphanumerics plus `-`, `.`, `_`, `~` with the leading
restriction, i.e. first character in `[a-z0-9-~]`, rest in `[a-z0-9-._~]`; the
spec gives no separate alphabet for the scope segment, so the same alphabet is
used for it.  Note that on no reading does the spec's alphabet include `*`. -/
def specPackageGrammar (s : String) : Bool :=
  packageGrammar nameHeadChars nameRestChars nameHeadChars nameRestChars s.toList

/-- The JavaScript whitespace class `\s` (also the set trimmed by
`String.prototype.trim`), by code point. -/
def jsIsSpace (c : Char) : Bool :=
  decide (c.toNat = 9 ∨ c.toNat = 10 ∨ c.toNat = 11 ∨ c.toNat = 12 ∨ c.toNat = 13 ∨
    c.toNat = 32 ∨ c.toNat = 160 ∨ c.toNat = 5760 ∨
    (8192 ≤ c.toNat ∧ c.toNat ≤ 8202) ∨ c.toNat = 8232 ∨ c.toNat = 8233 ∨
    c.toNat = 8239 ∨ c.toNat = 8287 ∨ c.toNat = 12288 ∨ c.toNat = 65279)

/-- `String.prototype.toLowerCase`, modelled on the ASCII letters (the only
characters whose lowercase image meets the classes the program keeps). -/
def jsToLower (c : Char) : Char :=
  if 'A' ≤ c ∧ c ≤ 'Z' then Char.ofNat (c.toNat + 32) else c

/-- `String.prototype.trim`: drop JS whitespace from both ends. -/
def jsTrim (l : List Char) : List Char :=
  ((l.dropWhile jsIsSpace).reverse.dropWhile jsIsSpace).reverse

/-- Helper for `collapseRuns`: the flag records whether the previous character
was part of a replaced run (in which case further run characters emit
nothing). -/
def collapseAux (bad : Char → Bool) : Bool → List Char → List Char
  | _, [] => []
  | prevBad, c :: rest =>
    if bad c then
      if prevBad then collapseAux bad true rest
      else '-' :: collapseAux bad true rest
    else c :: collapseAux bad false rest

/-- `str.replace(/X+/g, "-")` for a character class `X`: every maximal run of
characters satisfying `bad` is replaced by a single `'-'`. -/
def collapseRuns (bad : Char → Bool) (l : List Char) : List Char :=
  collapseAux bad false l

/-- `str.replace(/^[._]/, "")`: remove one leading `.` or `_` if present. -/
def stripLeadingDotUnderscore : List Char → List Char
  | [] => []
  | c :: rest => if c == '.' || c == '_' then rest else c :: rest

/-- The character class `[a-z0-9-~]` of the final replacement in
`toValidPackageName` (src/index.mjs line 37), as a predicate. -/
def keepChar (c : Char) : Bool :=
  decide (('a' ≤ c ∧ c ≤ 'z') ∨ ('0' ≤ c ∧ c ≤ '9') ∨ c = '-' ∨ c = '~')

/-- `toValidPackageName` (src/index.mjs lines 31-38): trim, lowercase,
collapse whitespace runs to `-`, strip one leading `.`/`_`, collapse runs of
characters outside `[a-z0-9-~]` to `-`. -/
def toValidPackageName (s : String) : String :=
  String.mk
    (collapseRuns (fun c => !keepChar c)
      (stripLeadingDotUnderscore
        (collapseRuns jsIsSpace
          ((jsTrim s.toList).map jsToLower))))

/-- ASCII alphanumeric characters (the reading of "alphanumeric" in the
spec's testable property for normalization). -/
def isAsciiAlnum (c : Char) : Bool :=
  decide (('a' ≤ c ∧ c ≤ 'z') ∨ ('A' ≤ c ∧ c ≤ 'Z') ∨ ('0' ≤ c ∧ c ≤ '9'))

/-- `String.prototype.split(sep)` for a one-character separator: JS yields the
(possibly empty) chunks between occurrences, e.g. splitting the empty string
yields one empty chunk. -/
def splitOnChar (sep : Char) : List Char → List (List Char)
  | [] => [[]]
  | c :: cs =>
    if c = sep then [] :: splitOnChar sep cs
    else
      match splitOnChar sep cs with
      | [] => [[c]]
      | h :: t => (c :: h) :: t

/-- `packageNameToDirName` (src/index.mjs lines 41-46): if the name contains
`/`, return element 1 of the `/`-split (JS `packageName.split("/")[1]`),
otherwise the name unchanged. -/
def packageNameToDirName (s : String) : String :=
  if s.toList.contains '/' then String.mk ((splitOnChar '/' s.toList).getD 1 [])
  else s

/-- Modelled from the spec (§4.1): "if `name` contains `/`, return the
substring after the first `/`; else return `name` unchanged". -/
def specDirNameAfterFirstSlash (s : String) : String :=
  match splitAtSlash s.toList with
  | some p => String.mk p.2
  | none => s

/-- JSON values, as produced by parsing a JSON file.  Numbers are modelled as
integers; no claim depends on numeric values. -/
inductive JVal where
  | str : String → JVal
  | num : Int → JVal
  | bool : Bool → JVal
  | null : JVal
  | arr : List JVal → JVal
  | obj : List (String × JVal) → JVal

/-- A file on disk holding JSON, remembered as its parsed value together with
the indentation width it was serialized with (observable in the bytes;
`writeJSON(..., { spaces: 2 })` writes with width 2). -/
structure JFile where
  val : JVal
  indent : Nat

/-- A filesystem: the set of directories and of files (with contents), each
named by its path, a list of segments.  The program only ever stores JSON
files, so file contents are `JFile`. -/
structure FS where
  dirs : List (List String)
  files : List (List String × JFile)

/-- `fs.existsSync(p)`: `p` names an existing directory or file. -/
def pathExists (fs : FS) (p : List String) : Bool :=
  fs.dirs.contains p || fs.files.any (fun e => e.1 == p)

/-- Content of the file at `p`, if any. -/
def lookupFile (fs : FS) (p : List String) : Option JFile :=
  (fs.files.find? (fun e => e.1 == p)).map (fun e => e.2)

/-- Replace the content of the existing file at `p`. -/
def writeFile (fs : FS) (p : List String) (f : JFile) : FS :=
  { fs with files := fs.files.map (fun e => if e.1 == p then (p, f) else e) }

/-- Value of field `k` of a JSON object (JS property read). -/
def fieldLookup (fields : List (String × JVal)) (k : String) : Option JVal :=
  (fields.find? (fun e => e.1 == k)).map (fun e => e.2)

/-- JS property assignment `o[k] = v` on a parsed JSON object: overwrite the
field in place if present, else append it. -/
def setField (fields : List (String × JVal)) (k : String) (v : JVal) : List (String × JVal) :=
  if fields.any (fun e => e.1 == k) then
    fields.map (fun e => if e.1 == k then (k, v) else e)
  else fields ++ [(k, v)]

/-- `updatePackageJson` (src/index.mjs lines 84-89): read
`destDir/package.json`, set its `name` property, write it back with 2-space
indentation.  `none` models a thrown error: the file is missing (`readJSON`
rejects; unparsable text cannot arise here since files store parsed values),
or the parsed value is a primitive or `null`, on which the strict-mode
property assignment throws.  On an array the assignment adds a non-index
property that `writeJSON` does not serialize, so the value is rewritten
unchanged (with 2-space indentation). -/
def updatePackageJson (fs : FS) (destDir : List String) (projectName : String) : Option FS :=
  match lookupFile fs (destDir ++ ["package.json"]) with
  | none => none
  | some f =>
    match f.val with
    | JVal.obj fields =>
      some (writeFile fs (destDir ++ ["package.json"])
        ⟨JVal.obj (setField fields "name" (JVal.str projectName)), 2⟩)
    | JVal.arr xs =>
      some (writeFile fs (destDir ++ ["package.json"]) ⟨JVal.arr xs, 2⟩)
    | _ => none

/-- The bundled template tree: directory and file paths relative to the
template root. -/
structure Template where
  dirs : List (List String)
  files : List (List String × JFile)

/-- Successful `copy(src, dest)` (fs-extra): `destDir` and the whole template
tree re-rooted at `destDir` appear in the filesystem. -/
def copyTree (fs : FS) (destDir : List String) (tpl : Template) : FS :=
  { dirs := fs.dirs ++ destDir :: tpl.dirs.map (fun d => destDir ++ d),
    files := fs.files ++ tpl.files.map (fun e => (destDir ++ e.1, e.2)) }

/-- `remove(p)` (fs-extra): delete `p` and everything below it. -/
def removeTree (fs : FS) (p : List String) : FS :=
  { dirs := fs.dirs.filter (fun q => !(p.isPrefixOf q)),
    files := fs.files.filter (fun e => !(p.isPrefixOf e.1)) }

/-- Observed behaviour of the spawned `npm install` child process: its exit
code, and the entries it created below its working directory before exiting. -/
structure InstallBehavior where
  exitCode : Nat
  createdDirs : List (List String)
  createdFiles : List (List String × JFile)

/-- Outcomes of the effectful steps, fixed before the run: whether the copy
succeeds (and the partial residue below the destination it leaves on failure),
and the installer's behaviour. -/
structure Oracle where
  copyOk : Bool
  copyResidueDirs : List (List String)
  copyResidueFiles : List (List String × JFile)
  install : InstallBehavior

/-- The record returned by the prompt session (src/index.mjs lines 49-68). -/
structure Answers where
  packageName : String
  installDeps : Bool

/-- The side-effecting steps of the orchestrator, for tracing which ran. -/
inductive Step where
  | copy : Step
  | patch : Step
  | install : Step

/-- Observable outcome of a run of `main`: the process exit code, the final
filesystem, and which side-effecting steps were started. -/
structure MainResult where
  exitCode : Nat
  fs : FS
  steps : List Step

/-- Add the given entries (paths relative to `destDir`) below `destDir`. -/
def addUnder (fs : FS) (destDir : List String) (ds : List (List String))
    (fls : List (List String × JFile)) : FS :=
  { dirs := fs.dirs ++ ds.map (fun d => destDir ++ d),
    files := fs.files ++ fls.map (fun e => (destDir ++ e.1, e.2)) }

/-- The catch-block cleanup (src/index.mjs lines 188-192): if the destination
exists, delete it recursively. -/
def cleanupDest (fs : FS) (p : List String) : FS :=
  if pathExists fs p then removeTree fs p else fs

/-- `main` (src/index.mjs lines 140-196) as a state transformer.  `arg` is
`process.argv[2]`; `ans` is what the prompt session returns (an aborted prompt
session is not modelled; it reaches the catch block with `destDir` still null
and exits 1 with the filesystem untouched); `cwd` is `process.cwd()`.  The
destination is `resolve(cwd, finalDirName)`, modelled as appending one path
segment.  Console output is not modelled.  Exit code 1 on a missing argument
or an existing destination; otherwise copy, patch and (optionally) install
run in order, any failure jumping to the cleanup path with exit code 1. -/
def runMain (arg : Option String) (ans : Answers) (orc : Oracle) (cwd : List String)
    (tpl : Template) (fs0 : FS) : MainResult :=
  match arg with
  | none => ⟨1, fs0, []⟩
  | some _ =>
    let destDir := cwd ++ [packageNameToDirName ans.packageName]
    if pathExists fs0 destDir then ⟨1, fs0, []⟩
    else if orc.copyOk then
      let fs1 := copyTree fs0 destDir tpl
      match updatePackageJson fs1 destDir ans.packageName with
      | none => ⟨1, cleanupDest fs1 destDir, [Step.copy, Step.patch]⟩
      | some fs2 =>
        if ans.installDeps then
          let fs3 := addUnder fs2 destDir orc.install.createdDirs orc.install.createdFiles
          if orc.install.exitCode == 0 then ⟨0, fs3, [Step.copy, Step.patch, Step.install]⟩
          else ⟨1, cleanupDest fs3 destDir, [Step.copy, Step.patch, Step.install]⟩
        else ⟨0, fs2, [Step.copy, Step.patch]⟩
    else
      let fs1 := addUnder fs0 destDir orc.copyResidueDirs orc.copyResidueFiles
      ⟨1, cleanupDest fs1 destDir, [Step.copy]⟩

/-- No directory or file at or below `p` exists in `fs`. -/
def noResidue (fs : FS) (p : List String) : Bool :=
  fs.dirs.all (fun q => !(p.isPrefixOf q)) && fs.files.all (fun e => !(p.isPrefixOf e.1))

/-! ### Character-level infrastructure -/

theorem char_le_iff (c d : Char) : c ≤ d ↔ c.toNat ≤ d.toNat := Iff.rfl

theorem char_toNat_inj {c d : Char} (h : c.toNat = d.toNat) : c = d := by
  have h2 : Char.ofNat c.toNat = Char.ofNat d.toNat := by rw [h]
  simpa [Char.ofNat_toNat] using h2

theorem char_eq_iff (c d : Char) : c = d ↔ c.toNat = d.toNat :=
  ⟨fun h => by rw [h], char_toNat_inj⟩

theorem toNat_ofNat_of_lt {n : Nat} (h : n < 55296) : (Char.ofNat n).toNat = n := by
  simp [Char.ofNat, Nat.isValidChar, Char.ofNatAux, Char.toNat, UInt32.toNat, h]

theorem mem_charRange {lo n : Nat} (hn : lo + n ≤ 55296) (c : Char) :
    c ∈ charRange lo n ↔ lo ≤ c.toNat ∧ c.toNat < lo + n := by
  unfold charRange
  simp only [List.mem_map, List.mem_range]
  constructor
  · rintro ⟨i, hi, rfl⟩
    rw [toNat_ofNat_of_lt (by omega)]
    omega
  · rintro ⟨h1, h2⟩
    refine ⟨c.toNat - lo, by omega, ?_⟩
    have h3 : lo + (c.toNat - lo) = c.toNat := by omega
    rw [h3, Char.ofNat_toNat]

theorem mem_lowerChars (c : Char) : c ∈ lowerChars ↔ 97 ≤ c.toNat ∧ c.toNat ≤ 122 := by
  rw [lowerChars, mem_charRange (by omega)]
  omega

theorem mem_digitChars (c : Char) : c ∈ digitChars ↔ 48 ≤ c.toNat ∧ c.toNat ≤ 57 := by
  rw [digitChars, mem_charRange (by omega)]
  omega

theorem mem_nameHeadChars (c : Char) :
    c ∈ nameHeadChars ↔
      (97 ≤ c.toNat ∧ c.toNat ≤ 122) ∨ (48 ≤ c.toNat ∧ c.toNat ≤ 57) ∨
      c.toNat = 45 ∨ c.toNat = 126 := by
  simp [nameHeadChars, List.mem_append, mem_lowerChars, mem_digitChars, char_eq_iff,
    show ('-').toNat = 45 from rfl, show ('~').toNat = 126 from rfl]

theorem mem_nameRestChars (c : Char) :
    c ∈ nameRestChars ↔
      (97 ≤ c.toNat ∧ c.toNat ≤ 122) ∨ (48 ≤ c.toNat ∧ c.toNat ≤ 57) ∨
      c.toNat = 45 ∨ c.toNat = 46 ∨ c.toNat = 95 ∨ c.toNat = 126 := by
  simp [nameRestChars, List.mem_append, mem_lowerChars, mem_digitChars, char_eq_iff,
    show ('-').toNat = 45 from rfl, show ('.').toNat = 46 from rfl,
    show ('_').toNat = 95 from rfl, show ('~').toNat = 126 from rfl]

theorem keepChar_iff (c : Char) :
    keepChar c = true ↔
      (97 ≤ c.toNat ∧ c.toNat ≤ 122) ∨ (48 ≤ c.toNat ∧ c.toNat ≤ 57) ∨
      c.toNat = 45 ∨ c.toNat = 126 := by
  unfold keepChar
  simp [char_le_iff, char_eq_iff,
    show ('a').toNat = 97 from rfl, show ('z').toNat = 122 from rfl,
    show ('0').toNat = 48 from rfl, show ('9').toNat = 57 from rfl,
    show ('-').toNat = 45 from rfl, show ('~').toNat = 126 from rfl]

theorem keepChar_mem_nameHead {c : Char} (h : keepChar c = true) : c ∈ nameHeadChars := by
  rw [mem_nameHeadChars]
  exact (keepChar_iff c).mp h

theorem keepChar_mem_nameRest {c : Char} (h : keepChar c = true) : c ∈ nameRestChars := by
  rw [mem_nameRestChars]
  rcases (keepChar_iff c).mp h with h | h | h | h <;> omega

theorem jsIsSpace_iff (c : Char) :
    jsIsSpace c = true ↔
      (c.toNat = 9 ∨ c.toNat = 10 ∨ c.toNat = 11 ∨ c.toNat = 12 ∨ c.toNat = 13 ∨
       c.toNat = 32 ∨ c.toNat = 160 ∨ c.toNat = 5760 ∨
       (8192 ≤ c.toNat ∧ c.toNat ≤ 8202) ∨ c.toNat = 8232 ∨ c.toNat = 8233 ∨
       c.toNat = 8239 ∨ c.toNat = 8287 ∨ c.toNat = 12288 ∨ c.toNat = 65279) := by
  unfold jsIsSpace
  exact decide_eq_true_iff

theorem keepChar_not_space {c : Char} (h : keepChar c = true) : jsIsSpace c = false := by
  rw [Bool.eq_false_iff]
  intro hs
  rw [jsIsSpace_iff] at hs
  rw [keepChar_iff] at h
  omega

theorem keepChar_jsToLower_eq {c : Char} (h : keepChar c = true) : jsToLower c = c := by
  unfold jsToLower
  rw [if_neg]
  rw [keepChar_iff] at h
  simp only [char_le_iff, show ('A').toNat = 65 from rfl, show ('Z').toNat = 90 from rfl, not_and]
  omega

theorem keepChar_not_dot_underscore {c : Char} (h : keepChar c = true) :
    (c == '.' || c == '_') = false := by
  rw [keepChar_iff] at h
  simp only [Bool.or_eq_false_iff, beq_eq_false_iff_ne, ne_eq, char_eq_iff,
    show ('.').toNat = 46 from rfl, show ('_').toNat = 95 from rfl]
  omega

theorem isAsciiAlnum_not_space {c : Char} (h : isAsciiAlnum c = true) : jsIsSpace c = false := by
  unfold isAsciiAlnum at h
  rw [decide_eq_true_iff] at h
  rw [Bool.eq_false_iff]
  intro hs
  rw [jsIsSpace_iff] at hs
  simp only [char_le_iff, show ('a').toNat = 97 from rfl, show ('z').toNat = 122 from rfl,
    show ('A').toNat = 65 from rfl, show ('Z').toNat = 90 from rfl,
    show ('0').toNat = 48 from rfl, show ('9').toNat = 57 from rfl] at h
  omega

theorem isAsciiAlnum_jsToLower_keep {c : Char} (h : isAsciiAlnum c = true) :
    keepChar (jsToLower c) = true := by
  unfold isAsciiAlnum at h
  rw [decide_eq_true_iff] at h
  simp only [char_le_iff, show ('a').toNat = 97 from rfl, show ('z').toNat = 122 from rfl,
    show ('A').toNat = 65 from rfl, show ('Z').toNat = 90 from rfl,
    show ('0').toNat = 48 from rfl, show ('9').toNat = 57 from rfl] at h
  unfold jsToLower
  by_cases hAZ : 'A' ≤ c ∧ c ≤ 'Z'
  · rw [if_pos hAZ, keepChar_iff]
    rw [char_le_iff, char_le_iff, show ('A').toNat = 65 from rfl,
      show ('Z').toNat = 90 from rfl] at hAZ
    rw [toNat_ofNat_of_lt (by omega)]
    omega
  · rw [if_neg hAZ, keepChar_iff]
    simp only [char_le_iff, show ('A').toNat = 65 from rfl, show ('Z').toNat = 90 from rfl,
      not_and, not_le] at hAZ
    omega

/-! ### List-surgery lemmas for the normalizer -/

theorem toList_mk (l : List Char) : (String.mk l).toList = l := rfl

theorem mem_dropWhile_of {p : Char → Bool} {l : List Char} {c : Char}
    (hc : c ∈ l) (h : p c = false) : c ∈ l.dropWhile p := by
  induction l with
  | nil => cases hc
  | cons d rest ih =>
    rw [List.dropWhile_cons]
    cases hd : p d
    · simpa [hd] using hc
    · rcases List.mem_cons.mp hc with rfl | hc'
      · rw [hd] at h; cases h
      · simpa [hd] using ih hc'

theorem dropWhile_id_of {p : Char → Bool} {l : List Char}
    (h : ∀ c ∈ l, p c = false) : l.dropWhile p = l := by
  cases l with
  | nil => rfl
  | cons d rest => rw [List.dropWhile_cons, h d (List.mem_cons_self d rest)]; simp

theorem jsTrim_id {l : List Char} (h : ∀ c ∈ l, jsIsSpace c = false) : jsTrim l = l := by
  unfold jsTrim
  rw [dropWhile_id_of h, dropWhile_id_of (fun c hc => h c (List.mem_reverse.mp hc)),
    List.reverse_reverse]

theorem mem_jsTrim_of {l : List Char} {c : Char} (hc : c ∈ l) (h : jsIsSpace c = false) :
    c ∈ jsTrim l := by
  unfold jsTrim
  rw [List.mem_reverse]
  exact mem_dropWhile_of (List.mem_reverse.mpr (mem_dropWhile_of hc h)) h

theorem mem_collapseAux {bad : Char → Bool} {l : List Char} {b : Bool} {c : Char}
    (h : c ∈ collapseAux bad b l) : c = '-' ∨ bad c = false := by
  induction l generalizing b with
  | nil => cases h
  | cons d rest ih =>
    cases hd : bad d
    · rw [collapseAux, hd] at h
      simp only [Bool.false_eq_true, if_false] at h
      rcases List.mem_cons.mp h with rfl | h'
      · exact Or.inr hd
      · exact ih h'
    · rw [collapseAux, hd] at h
      simp only [if_true] at h
      cases b
      · simp only [Bool.false_eq_true, if_false] at h
        rcases List.mem_cons.mp h with rfl | h'
        · exact Or.inl rfl
        · exact ih h'
      · simp only [if_true] at h
        exact ih h

theorem collapseAux_id {bad : Char → Bool} {l : List Char}
    (h : ∀ c ∈ l, bad c = false) (b : Bool) : collapseAux bad b l = l := by
  induction l generalizing b with
  | nil => rfl
  | cons d rest ih =>
    rw [collapseAux, h d (List.mem_cons_self d rest)]
    simp only [Bool.false_eq_true, if_false]
    rw [ih (fun c hc => h c (List.mem_cons_of_mem d hc))]

theorem mem_collapseAux_of {bad : Char → Bool} {l : List Char} {c : Char}
    (hc : c ∈ l) (hgood : bad c = false) (b : Bool) : c ∈ collapseAux bad b l := by
  induction l generalizing b with
  | nil => cases hc
  | cons d rest ih =>
    cases hd : bad d
    · rw [collapseAux, hd]
      simp only [Bool.false_eq_true, if_false]
      rcases List.mem_cons.mp hc with rfl | hc'
      · exact List.mem_cons_self c (collapseAux bad false rest)
      · exact List.mem_cons_of_mem d (ih hc' false)
    · rcases List.mem_cons.mp hc with rfl | hc'
      · rw [hd] at hgood; cases hgood
      · rw [collapseAux, hd]
        simp only [if_true]
        cases b
        · simp only [Bool.false_eq_true, if_false]
          exact List.mem_cons_of_mem _ (ih hc' true)
        · simp only [if_true]
          exact ih hc' true

theorem stripLeading_id {l : List Char} (h : ∀ c ∈ l, keepChar c = true) :
    stripLeadingDotUnderscore l = l := by
  cases l with
  | nil => rfl
  | cons c rest =>
    rw [stripLeadingDotUnderscore,
      keepChar_not_dot_underscore (h c (List.mem_cons_self c rest))]
    simp

theorem mem_stripLeading_of {l : List Char} {c : Char} (hc : c ∈ l)
    (hdot : (c == '.' || c == '_') = false) : c ∈ stripLeadingDotUnderscore l := by
  cases l with
  | nil => cases hc
  | cons d rest =>
    rw [stripLeadingDotUnderscore]
    cases hd : (d == '.' || d == '_')
    · simpa using hc
    · simp only [if_true]
      rcases List.mem_cons.mp hc with rfl | hc'
      · rw [hd] at hdot; cases hdot
      · exact hc'

theorem toValid_chars {s : String} {c : Char} (h : c ∈ (toValidPackageName s).toList) :
    keepChar c = true := by
  unfold toValidPackageName collapseRuns at h
  rw [toList_mk] at h
  rcases mem_collapseAux h with rfl | hgood
  · decide
  · simpa using hgood

/-! ### The language of the validation regex -/

theorem mem_cls (cs : List Char) (x : List Char) :
    x ∈ (cls cs).matches' ↔ ∃ c, c ∈ cs ∧ x = [c] := by
  induction cs with
  | nil =>
    rw [cls]
    constructor
    · intro h
      exact absurd h (Language.not_mem_zero x)
    · rintro ⟨c, hc, _⟩
      cases hc
  | cons c cs ih =>
    rw [cls, matches'_add, Language.mem_add, matches'_char, Set.mem_singleton_iff, ih]
    constructor
    · rintro (rfl | ⟨d, hd, rfl⟩)
      · exact ⟨c, List.mem_cons_self c cs, rfl⟩
      · exact ⟨d, List.mem_cons_of_mem c hd, rfl⟩
    · rintro ⟨d, hd, rfl⟩
      rcases List.mem_cons.mp hd with rfl | hd'
      · exact Or.inl rfl
      · exact Or.inr ⟨d, hd', rfl⟩

theorem mem_cls_star (cs : List Char) (x : List Char) :
    x ∈ (cls cs).star.matches' ↔ ∀ c ∈ x, c ∈ cs := by
  rw [matches'_star]
  constructor
  · intro h c hc
    rw [Language.mem_kstar] at h
    obtain ⟨L, rfl, hL⟩ := h
    obtain ⟨y, hy, hcy⟩ := List.mem_flatten.mp hc
    obtain ⟨d, hd, rfl⟩ := (mem_cls cs y).mp (hL y hy)
    rw [List.mem_singleton] at hcy
    exact hcy ▸ hd
  · induction x with
    | nil => intro _; exact Language.nil_mem_kstar _
    | cons c rest ih =>
      intro h
      have h1 : [c] ∈ (cls cs).matches' :=
        (mem_cls cs [c]).mpr ⟨c, h c (List.mem_cons_self c rest), rfl⟩
      have h2 := ih (fun d hd => h d (List.mem_cons_of_mem c hd))
      rw [Language.mem_kstar] at h2 ⊢
      obtain ⟨L, rfl, hL⟩ := h2
      refine ⟨[c] :: L, by simp, ?_⟩
      intro y hy
      rcases List.mem_cons.mp hy with rfl | hy'
      · exact h1
      · exact hL y hy'

theorem mem_seg_regex (hd rst : List Char) (x : List Char) :
    x ∈ ((cls hd) * (cls rst).star).matches' ↔ isSegment hd rst x = true := by
  rw [matches'_mul, Language.mem_mul]
  constructor
  · rintro ⟨a, ha, b, hb, rfl⟩
    obtain ⟨c, hc, rfl⟩ := (mem_cls hd a).mp ha
    rw [mem_cls_star] at hb
    show isSegment hd rst (c :: b) = true
    rw [isSegment]
    simp only [Bool.and_eq_true, decide_eq_true_eq, List.all_eq_true]
    exact ⟨hc, fun d hdm => hb d hdm⟩
  · intro h
    cases x with
    | nil => cases h
    | cons c b =>
      rw [isSegment] at h
      simp only [Bool.and_eq_true, decide_eq_true_eq, List.all_eq_true] at h
      obtain ⟨hc, hb⟩ := h
      exact ⟨[c], (mem_cls hd [c]).mpr ⟨c, hc, rfl⟩, b, (mem_cls_star rst b).mpr hb, rfl⟩

theorem mem_scope_regex (sh sr : List Char) (x : List Char) :
    x ∈ (RegularExpression.char '@' * cls sh * (cls sr).star *
          RegularExpression.char '/').matches' ↔
      ∃ sc, isSegment sh sr sc = true ∧ x = '@' :: (sc ++ ['/']) := by
  rw [matches'_mul, Language.mem_mul]
  constructor
  · rintro ⟨u, hu, v, hv, rfl⟩
    rw [matches'_char, Set.mem_singleton_iff] at hv
    subst hv
    rw [matches'_mul, Language.mem_mul] at hu
    obtain ⟨w, hw, a3, ha3, rfl⟩ := hu
    rw [mem_cls_star] at ha3
    rw [matches'_mul, Language.mem_mul] at hw
    obtain ⟨a1, ha1, a2, ha2, rfl⟩ := hw
    rw [matches'_char, Set.mem_singleton_iff] at ha1
    subst ha1
    obtain ⟨c, hc, rfl⟩ := (mem_cls sh a2).mp ha2
    refine ⟨c :: a3, ?_, by simp⟩
    rw [isSegment]
    simp only [Bool.and_eq_true, decide_eq_true_eq, List.all_eq_true]
    exact ⟨hc, ha3⟩
  · rintro ⟨sc, hsc, rfl⟩
    cases sc with
    | nil => cases hsc
    | cons c a3 =>
      rw [isSegment] at hsc
      simp only [Bool.and_eq_true, decide_eq_true_eq, List.all_eq_true] at hsc
      obtain ⟨hc, ha3⟩ := hsc
      refine ⟨['@'] ++ [c] ++ a3, ?_, ['/'], by rw [matches'_char]; rfl, by simp⟩
      rw [matches'_mul, Language.mem_mul]
      refine ⟨['@'] ++ [c], ?_, a3, (mem_cls_star sr a3).mpr ha3, rfl⟩
      rw [matches'_mul, Language.mem_mul]
      exact ⟨['@'], by rw [matches'_char]; rfl, [c], (mem_cls sh [c]).mpr ⟨c, hc, rfl⟩, rfl⟩

/-! ### Split-at-slash bookkeeping -/

theorem splitAtSlash_append {sc : List Char} (h : '/' ∉ sc) (nm : List Char) :
    splitAtSlash (sc ++ '/' :: nm) = some (sc, nm) := by
  induction sc with
  | nil => rw [List.nil_append, splitAtSlash, if_pos rfl]
  | cons c cs ih =>
    have hc : ¬ c = '/' := fun hh => h (hh ▸ List.mem_cons_self c cs)
    rw [List.cons_append, splitAtSlash, if_neg hc,
      ih (fun hm => h (List.mem_cons_of_mem c hm))]
    rfl

theorem splitAtSlash_eq_append {l sc nm : List Char} (h : splitAtSlash l = some (sc, nm)) :
    l = sc ++ '/' :: nm ∧ '/' ∉ sc := by
  induction l generalizing sc nm with
  | nil => cases h
  | cons c cs ih =>
    by_cases hc : c = '/'
    · subst hc
      rw [splitAtSlash, if_pos rfl] at h
      injection h with h
      injection h with h1 h2
      subst h1
      subst h2
      exact ⟨rfl, List.not_mem_nil '/'⟩
    · rw [splitAtSlash, if_neg hc] at h
      cases hs : splitAtSlash cs with
      | none => rw [hs] at h; cases h
      | some p =>
        obtain ⟨a, b⟩ := p
        rw [hs, Option.map_some'] at h
        injection h with h
        injection h with h1 h2
        subst h1
        subst h2
        obtain ⟨hcs, hns⟩ := ih hs
        constructor
        · rw [List.cons_append, ← hcs]
        · intro hm
          rcases List.mem_cons.mp hm with h3 | h3
          · exact hc h3.symm
          · exact hns h3

theorem splitAtSlash_none_iff {l : List Char} : splitAtSlash l = none ↔ '/' ∉ l := by
  induction l with
  | nil => simp [splitAtSlash]
  | cons c cs ih =>
    by_cases hc : c = '/'
    · subst hc
      rw [splitAtSlash, if_pos rfl]
      simp
    · rw [splitAtSlash, if_neg hc]
      cases hs : splitAtSlash cs with
      | none =>
        simp only [Option.map_none', true_iff]
        intro hm
        rcases List.mem_cons.mp hm with h3 | h3
        · exact hc h3.symm
        · exact (ih.mp hs) h3
      | some p =>
        obtain ⟨a, b⟩ := p
        simp only [Option.map_some', List.mem_cons, not_or]
        constructor
        · intro hh; cases hh
        · rintro ⟨h1, h2⟩
          exfalso
          apply h2
          rw [(splitAtSlash_eq_append hs).1]
          exact List.mem_append.mpr (Or.inr (List.mem_cons_self '/' b))

theorem isSegment_not_mem {hd rst sc : List Char} {d : Char} (h : isSegment hd rst sc = true)
    (h1 : d ∉ hd) (h2 : d ∉ rst) : d ∉ sc := by
  cases sc with
  | nil => exact List.not_mem_nil d
  | cons c cs =>
    rw [isSegment] at h
    simp only [Bool.and_eq_true, decide_eq_true_eq, List.all_eq_true] at h
    obtain ⟨hc, hcs⟩ := h
    intro hm
    rcases List.mem_cons.mp hm with rfl | hm'
    · exact h1 hc
    · exact h2 (hcs d hm')

/-- The central characterization: the source regex matches exactly the strings
of the structural package grammar, for any scope classes avoiding `/`. -/
theorem rmatch_iff_grammar (sh sr nh nr : List Char) (hsh : '/' ∉ sh) (hsr : '/' ∉ sr)
    (l : List Char) :
    ((1 + (RegularExpression.char '@' * cls sh * (cls sr).star *
        RegularExpression.char '/')) * (cls nh * (cls nr).star)).rmatch l = true ↔
      packageGrammar sh sr nh nr l = true := by
  rw [rmatch_iff_matches', matches'_mul, Language.mem_mul]
  constructor
  · rintro ⟨a, ha, b, hb, rfl⟩
    rw [matches'_add, Language.mem_add, matches'_epsilon, Language.mem_one] at ha
    rw [mem_seg_regex] at hb
    rcases ha with rfl | ha
    · rw [List.nil_append, packageGrammar, hb, Bool.true_or]
    · obtain ⟨sc, hsc, rfl⟩ := (mem_scope_regex sh sr a).mp ha
      have hsl : '/' ∉ sc := isSegment_not_mem hsc hsh hsr
      have heq : ('@' :: (sc ++ ['/'])) ++ b = '@' :: (sc ++ '/' :: b) := by simp
      rw [heq, packageGrammar, scopedPart]
      have hsplit : splitAtSlash (sc ++ '/' :: b) = some (sc, b) := splitAtSlash_append hsl b
      rw [hsplit]
      simp only [beq_self_eq_true, Bool.true_and, hsc, hb, Bool.and_self, Bool.or_true]
  · intro h
    cases l with
    | nil =>
      rw [packageGrammar, isSegment, scopedPart] at h
      cases h
    | cons c rest =>
      rw [packageGrammar, Bool.or_eq_true] at h
      rcases h with h | h
      · refine ⟨[], ?_, c :: rest, (mem_seg_regex nh nr (c :: rest)).mpr h, rfl⟩
        rw [matches'_add, Language.mem_add, matches'_epsilon, Language.mem_one]
        exact Or.inl rfl
      · rw [scopedPart, Bool.and_eq_true, beq_iff_eq] at h
        obtain ⟨rfl, h2⟩ := h
        cases hs : splitAtSlash rest with
        | none => rw [hs] at h2; cases h2
        | some p =>
          rw [hs, Bool.and_eq_true] at h2
          obtain ⟨hsc, hnm⟩ := h2
          obtain ⟨hrest, _⟩ := splitAtSlash_eq_append hs
          refine ⟨'@' :: (p.1 ++ ['/']), ?_, p.2,
            (mem_seg_regex nh nr p.2).mpr hnm, by simp [hrest]⟩
          rw [matches'_add, Language.mem_add]
          exact Or.inr ((mem_scope_regex sh sr _).mpr ⟨p.1, hsc, rfl⟩)

/-- `isValidPackageName`, characterized structurally. -/
theorem isValid_iff_grammar (s : String) :
    isValidPackageName s = true ↔
      packageGrammar scopeHeadChars scopeRestChars nameHeadChars nameRestChars s.toList = true := by
  rw [isValidPackageName, packageNameRegex]
  exact rmatch_iff_grammar scopeHeadChars scopeRestChars nameHeadChars nameRestChars
    (by decide) (by decide) s.toList

/-! ### Split-on-slash lemmas for the directory name -/

theorem map_id_of_mem {l : List Char} {f : Char → Char} (h : ∀ c ∈ l, f c = c) :
    l.map f = l := by
  induction l with
  | nil => rfl
  | cons c cs ih =>
    rw [List.map_cons, h c (List.mem_cons_self c cs),
      ih (fun d hd => h d (List.mem_cons_of_mem c hd))]

theorem collapseRuns_id {bad : Char → Bool} {l : List Char}
    (h : ∀ c ∈ l, bad c = false) : collapseRuns bad l = l :=
  collapseAux_id h false

theorem splitOnChar_no_sep {sep : Char} {b : List Char} (h : sep ∉ b) :
    splitOnChar sep b = [b] := by
  induction b with
  | nil => rfl
  | cons c cs ih =>
    have hc : ¬ c = sep := fun hh => h (hh ▸ List.mem_cons_self c cs)
    rw [splitOnChar, if_neg hc, ih (fun hm => h (List.mem_cons_of_mem c hm))]

theorem splitOnChar_append {sep : Char} {a : List Char} (h : sep ∉ a) (b : List Char) :
    splitOnChar sep (a ++ sep :: b) = a :: splitOnChar sep b := by
  induction a with
  | nil => rw [List.nil_append, splitOnChar, if_pos rfl]
  | cons c cs ih =>
    have hc : ¬ c = sep := fun hh => h (hh ▸ List.mem_cons_self c cs)
    rw [List.cons_append, splitOnChar, if_neg hc,
      ih (fun hm => h (List.mem_cons_of_mem c hm))]

theorem splitOnChar_head (sep : Char) (b : List Char) :
    ∃ t, splitOnChar sep b = (b.takeWhile (fun c => !(c == sep))) :: t := by
  induction b with
  | nil => exact ⟨[], rfl⟩
  | cons c cs ih =>
    by_cases hc : c = sep
    · subst hc
      refine ⟨splitOnChar c cs, ?_⟩
      rw [splitOnChar, if_pos rfl, List.takeWhile_cons]
      simp
    · obtain ⟨t, ht⟩ := ih
      refine ⟨t, ?_⟩
      rw [splitOnChar, if_neg hc, ht, List.takeWhile_cons]
      have hcb : (!(c == sep)) = true := by simp [hc]
      rw [hcb]
      simp

/-! ### Claims about the pure string functions -/

/-- C1 (amended): `isValidPackageName` accepts exactly the strings of the
grammar of the source regex: an optional `@scope/` prefix whose scope segment
starts with a character in `[a-z0-9-*~]` and continues with `[a-z0-9-*._~]`,
followed by a name segment starting with `[a-z0-9-~]` and continuing with
`[a-z0-9-._~]` (so `*` is allowed in the scope, and `.`/`_` are allowed
non-leading in both segments). -/
theorem isValidPackageName_eq_codeGrammar (s : String) :
    isValidPackageName s = codePackageGrammar s := by
  rw [codePackageGrammar]
  exact Bool.eq_iff_iff.mpr (isValid_iff_grammar s)

/-- C1 counterexample: the claimed equivalence with the spec's grammar (whose
alphabet does not contain `*`) fails: the code accepts `@*/a`. -/
theorem isValidPackageName_spec_cex :
    ¬ ∀ s : String, (isValidPackageName s = true ↔ specPackageGrammar s = true) := by
  intro h
  have h1 : isValidPackageName "@*/a" = true := by decide
  exact absurd ((h "@*/a").mp h1) (by decide)

/-- C4 (amended): when the name contains a `/`, `packageNameToDirName` returns
the chunk strictly between the first `/` and the next `/` (or the end of the
string), not everything after the first `/`; names without `/` are returned
unchanged. -/
theorem packageNameToDirName_chunk (s : String) :
    packageNameToDirName s =
      match splitAtSlash s.toList with
      | some p => String.mk (p.2.takeWhile (fun c => !(c == '/')))
      | none => s := by
  cases hs : splitAtSlash s.toList with
  | none =>
    have hn : '/' ∉ s.toList := splitAtSlash_none_iff.mp hs
    rw [packageNameToDirName, if_neg (fun hcon => hn (List.elem_iff.mp hcon))]
  | some p =>
    obtain ⟨a, b⟩ := p
    obtain ⟨hsl, hna⟩ := splitAtSlash_eq_append hs
    have hcontains : s.toList.contains '/' = true := by
      rw [hsl]
      exact List.elem_iff.mpr (List.mem_append.mpr (Or.inr (List.mem_cons_self '/' b)))
    rw [packageNameToDirName, if_pos hcontains, hsl, splitOnChar_append hna]
    obtain ⟨t, ht⟩ := splitOnChar_head '/' b
    rw [ht]
    rfl

/-- C4 counterexample: on `a/b/c` the code returns `b`, not the substring
`b/c` after the first `/`. -/
theorem packageNameToDirName_cex :
    ¬ ∀ s : String, packageNameToDirName s = specDirNameAfterFirstSlash s := by
  intro h
  exact absurd (h "a/b/c") (by decide)

/-- C5: the three documented examples of `packageNameToDirName`, including the
multi-slash edge case where element 1 of the split is taken. -/
theorem packageNameToDirName_examples :
    packageNameToDirName "@scope/pkg" = "pkg" ∧
    packageNameToDirName "plainname" = "plainname" ∧
    packageNameToDirName "@scope/a/b" = "a" := by
  decide

/-- C9: every character of `toValidPackageName s` is a lowercase letter, a
digit, `-`, or `~`; in particular never whitespace, uppercase, `.`, `_`, `/`
or `@`. -/
theorem toValidPackageName_alphabet (s : String) (c : Char)
    (h : c ∈ (toValidPackageName s).toList) :
    ('a' ≤ c ∧ c ≤ 'z') ∨ ('0' ≤ c ∧ c ≤ '9') ∨ c = '-' ∨ c = '~' := by
  have hk := toValid_chars h
  unfold keepChar at hk
  exact of_decide_eq_true hk

/-- Witness for C9 at the concrete input `A b?`. -/
theorem toValidPackageName_alphabet_witness :
    'a' ∈ (toValidPackageName "A b?").toList ∧
      (('a' ≤ 'a' ∧ 'a' ≤ 'z') ∨ ('0' ≤ 'a' ∧ 'a' ≤ '9') ∨ 'a' = '-' ∨ 'a' = '~') :=
  ⟨by decide, toValidPackageName_alphabet "A b?" 'a' (by decide)⟩

/-- C7: `toValidPackageName` is idempotent. -/
theorem toValidPackageName_idempotent (s : String) :
    toValidPackageName (toValidPackageName s) = toValidPackageName s := by
  have hchars : ∀ c ∈ (toValidPackageName s).toList, keepChar c = true :=
    fun c hc => toValid_chars hc
  conv_lhs => rw [toValidPackageName]
  rw [jsTrim_id (fun c hc => keepChar_not_space (hchars c hc))]
  rw [map_id_of_mem (fun c hc => keepChar_jsToLower_eq (hchars c hc))]
  rw [collapseRuns_id (fun c hc => keepChar_not_space (hchars c hc))]
  rw [stripLeading_id hchars]
  rw [collapseRuns_id (fun c hc => by simp [hchars c hc])]
  rfl

/-- C6: normalizing any non-empty string containing at least one ASCII
alphanumeric character yields a syntactically valid package name. -/
theorem toValidPackageName_valid (s : String) (_h1 : s ≠ "")
    (h2 : ∃ c ∈ s.toList, isAsciiAlnum c = true) :
    isValidPackageName (toValidPackageName s) = true := by
  obtain ⟨c, hc, hal⟩ := h2
  have hkeep : keepChar (jsToLower c) = true := isAsciiAlnum_jsToLower_keep hal
  have m1 : c ∈ jsTrim s.toList := mem_jsTrim_of hc (isAsciiAlnum_not_space hal)
  have m2 : jsToLower c ∈ (jsTrim s.toList).map jsToLower := List.mem_map_of_mem jsToLower m1
  have m3 : jsToLower c ∈ collapseAux jsIsSpace false ((jsTrim s.toList).map jsToLower) :=
    mem_collapseAux_of m2 (keepChar_not_space hkeep) false
  have m4 : jsToLower c ∈
      stripLeadingDotUnderscore
        (collapseAux jsIsSpace false ((jsTrim s.toList).map jsToLower)) :=
    mem_stripLeading_of m3 (keepChar_not_dot_underscore hkeep)
  have m5 : jsToLower c ∈
      collapseAux (fun d => !keepChar d) false
        (stripLeadingDotUnderscore
          (collapseAux jsIsSpace false ((jsTrim s.toList).map jsToLower))) :=
    mem_collapseAux_of m4 (by simp [hkeep]) false
  have hmem : jsToLower c ∈ (toValidPackageName s).toList := m5
  have hall : ∀ d ∈ (toValidPackageName s).toList, keepChar d = true :=
    fun d hd => toValid_chars hd
  rw [isValid_iff_grammar, packageGrammar, Bool.or_eq_true]
  left
  cases houtc : (toValidPackageName s).toList with
  | nil => rw [houtc] at hmem; cases hmem
  | cons d rest =>
    rw [isSegment]
    simp only [Bool.and_eq_true, decide_eq_true_eq, List.all_eq_true]
    constructor
    · exact keepChar_mem_nameHead (hall d (houtc ▸ List.mem_cons_self d rest))
    · intro e he
      exact keepChar_mem_nameRest (hall e (houtc ▸ List.mem_cons_of_mem d he))

/-- Witness for C6 at the concrete input `My Cool App`. -/
theorem toValidPackageName_valid_witness :
    (("My Cool App" : String) ≠ "" ∧ ∃ c ∈ "My Cool App".toList, isAsciiAlnum c = true) ∧
      isValidPackageName (toValidPackageName "My Cool App") = true :=
  ⟨⟨by decide, ⟨'M', by decide, by decide⟩⟩,
    toValidPackageName_valid "My Cool App" (by decide) ⟨'M', by decide, by decide⟩⟩

/-- C10: every name accepted by `isValidPackageName` has a non-empty
directory name. -/
theorem validName_dirName_ne_empty (s : String) (h : isValidPackageName s = true) :
    packageNameToDirName s ≠ "" := by
  rw [isValid_iff_grammar, packageGrammar, Bool.or_eq_true] at h
  rcases h with h | h
  · have hns : '/' ∉ s.toList := isSegment_not_mem h (by decide) (by decide)
    rw [packageNameToDirName, if_neg (fun hcon => hns (List.elem_iff.mp hcon))]
    cases hl : s.toList with
    | nil => rw [hl, isSegment] at h; cases h
    | cons c rest =>
      intro hempty
      rw [hempty] at hl
      cases hl
  · cases hl : s.toList with
    | nil => rw [hl, scopedPart] at h; cases h
    | cons c rest =>
      rw [hl, scopedPart, Bool.and_eq_true, beq_iff_eq] at h
      obtain ⟨rfl, h2⟩ := h
      cases hs : splitAtSlash rest with
      | none => rw [hs] at h2; cases h2
      | some p =>
        obtain ⟨a, b⟩ := p
        rw [hs, Bool.and_eq_true] at h2
        obtain ⟨hsc, hnm⟩ := h2
        obtain ⟨hrest, hna⟩ := splitAtSlash_eq_append hs
        have hcontains : s.toList.contains '/' = true := by
          rw [hl, hrest]
          exact List.elem_iff.mpr (List.mem_cons_of_mem _
            (List.mem_append.mpr (Or.inr (List.mem_cons_self '/' b))))
        rw [packageNameToDirName, if_pos hcontains, hl, hrest]
        have hnot : '/' ∉ ('@' :: a) := by
          intro hm
          rcases List.mem_cons.mp hm with h3 | h3
          · exact absurd h3 (by decide)
          · exact hna h3
        have hassoc : ('@' :: (a ++ '/' :: b)) = ('@' :: a) ++ '/' :: b := by simp
        rw [hassoc, splitOnChar_append hnot,
          splitOnChar_no_sep (isSegment_not_mem hnm (by decide) (by decide))]
        show String.mk b ≠ ""
        cases hb : b with
        | nil => rw [hb, isSegment] at hnm; cases hnm
        | cons e es =>
          intro hempty
          have h4 := congrArg String.toList hempty
          rw [toList_mk] at h4
          cases h4

/-- Witness for C10 at the concrete input `@a/b`. -/
theorem validName_dirName_ne_empty_witness :
    isValidPackageName "@a/b" = true ∧ packageNameToDirName "@a/b" ≠ "" :=
  ⟨by decide, validName_dirName_ne_empty "@a/b" (by decide)⟩

/-! ### Association-list lemmas for the filesystem model -/

theorem upd_find?_self {κ β : Type} [BEq κ] [LawfulBEq κ] {L : List (κ × β)} {p : κ} (g : β)
    (h : (L.find? (fun e => e.1 == p)).isSome = true) :
    (L.map (fun e => if e.1 == p then (p, g) else e)).find? (fun e => e.1 == p) =
      some (p, g) := by
  induction L with
  | nil => cases h
  | cons c t ih =>
    rw [List.map_cons]
    cases hc : (c.1 == p)
    · rw [if_neg (by simp [hc]), List.find?_cons_of_neg _ (by simp [hc])]
      rw [List.find?_cons_of_neg _ (by simp [hc])] at h
      exact ih h
    · rw [if_pos (by simp_all), List.find?_cons_of_pos _ (by simp)]

theorem upd_find?_ne {κ β : Type} [BEq κ] [LawfulBEq κ] {L : List (κ × β)} {p q : κ} (g : β)
    (hne : q ≠ p) :
    (L.map (fun e => if e.1 == p then (p, g) else e)).find? (fun e => e.1 == q) =
      L.find? (fun e => e.1 == q) := by
  induction L with
  | nil => rfl
  | cons c t ih =>
    rw [List.map_cons]
    cases hc : (c.1 == p)
    · rw [if_neg (by simp [hc])]
      cases hq : (c.1 == q)
      · rw [List.find?_cons_of_neg _ (by simp [hq]), List.find?_cons_of_neg _ (by simp [hq])]
        exact ih
      · rw [List.find?_cons_of_pos _ (by simp [hq]), List.find?_cons_of_pos _ (by simp [hq])]
    · have hcp : c.1 = p := by simpa using hc
      have hpq : (p == q) = false := beq_eq_false_iff_ne.mpr (fun hh => hne hh.symm)
      rw [if_pos (by simp [hc])]
      rw [List.find?_cons_of_neg _ (by simp [hpq]),
        List.find?_cons_of_neg _ (by simp [hcp, hpq])]
      exact ih

theorem find?_append_single {κ β : Type} [BEq κ] [LawfulBEq κ] {L : List (κ × β)} {k q : κ}
    (v : β) (hne : q ≠ k) :
    ((L ++ [(k, v)]).find? (fun e => e.1 == q)) = L.find? (fun e => e.1 == q) := by
  rw [List.find?_append]
  cases hL : L.find? (fun e => e.1 == q) with
  | some x => rfl
  | none =>
    have hk : (k == q) = false := beq_eq_false_iff_ne.mpr (fun hh => hne hh.symm)
    rw [List.find?_cons_of_neg _ (by simp [hk])]
    rfl

theorem find?_append_self {κ β : Type} [BEq κ] [LawfulBEq κ] {L : List (κ × β)} {k : κ} (v : β)
    (h : L.find? (fun e => e.1 == k) = none) :
    ((L ++ [(k, v)]).find? (fun e => e.1 == k)) = some (k, v) := by
  rw [List.find?_append, h]
  rw [List.find?_cons_of_pos _ (by simp)]
  rfl

/-! ### Behaviour of the manifest patcher -/

theorem fieldLookup_setField_self (fields : List (String × JVal)) (k : String) (v : JVal) :
    fieldLookup (setField fields k v) k = some v := by
  rw [setField]
  by_cases h : fields.any (fun e => e.1 == k) = true
  · rw [if_pos h, fieldLookup,
      upd_find?_self v (List.find?_isSome.mpr (List.any_eq_true.mp h))]
    rfl
  · rw [if_neg h, fieldLookup, find?_append_self v ?_]
    · rfl
    · rw [List.find?_eq_none]
      intro x hx hpx
      exact h (List.any_eq_true.mpr ⟨x, hx, hpx⟩)

theorem fieldLookup_setField_ne (fields : List (String × JVal)) (k q : String) (v : JVal)
    (hne : q ≠ k) :
    fieldLookup (setField fields k v) q = fieldLookup fields q := by
  rw [setField]
  by_cases h : fields.any (fun e => e.1 == k) = true
  · rw [if_pos h, fieldLookup, fieldLookup, upd_find?_ne v hne]
  · rw [if_neg h, fieldLookup, fieldLookup, find?_append_single v hne]

theorem lookupFile_writeFile_self {fs : FS} {p : List String} {f : JFile} (g : JFile)
    (h : lookupFile fs p = some f) :
    lookupFile (writeFile fs p g) p = some g := by
  have hs : (fs.files.find? (fun e => e.1 == p)).isSome = true := by
    cases ho : fs.files.find? (fun e => e.1 == p) with
    | none => rw [lookupFile, ho] at h; cases h
    | some e => rfl
  show ((fs.files.map (fun e => if e.1 == p then (p, g) else e)).find?
      (fun e => e.1 == p)).map (fun e => e.2) = some g
  rw [upd_find?_self g hs]
  rfl

theorem lookupFile_writeFile_ne {fs : FS} {p q : List String} (g : JFile) (hne : q ≠ p) :
    lookupFile (writeFile fs p g) q = lookupFile fs q := by
  show ((fs.files.map (fun e => if e.1 == p then (p, g) else e)).find?
      (fun e => e.1 == q)).map (fun e => e.2) =
    (fs.files.find? (fun e => e.1 == q)).map (fun e => e.2)
  rw [upd_find?_ne g hne]

/-- C8: if `destDir/package.json` holds a JSON object, `updatePackageJson`
succeeds, rewrites exactly that file with 2-space indentation, sets its `name`
field to the project name (overwriting any previous value), leaves every
other field's value unchanged, and leaves every other file and all
directories untouched. -/
theorem updatePackageJson_spec (fs : FS) (destDir : List String) (projectName : String)
    (fields : List (String × JVal)) (ind : Nat)
    (h : lookupFile fs (destDir ++ ["package.json"]) = some ⟨JVal.obj fields, ind⟩) :
    ∃ fs2, updatePackageJson fs destDir projectName = some fs2 ∧
      lookupFile fs2 (destDir ++ ["package.json"]) =
        some ⟨JVal.obj (setField fields "name" (JVal.str projectName)), 2⟩ ∧
      fieldLookup (setField fields "name" (JVal.str projectName)) "name" =
        some (JVal.str projectName) ∧
      (∀ k, k ≠ "name" →
        fieldLookup (setField fields "name" (JVal.str projectName)) k =
          fieldLookup fields k) ∧
      (∀ q, q ≠ destDir ++ ["package.json"] → lookupFile fs2 q = lookupFile fs q) ∧
      fs2.dirs = fs.dirs := by
  refine ⟨writeFile fs (destDir ++ ["package.json"])
      ⟨JVal.obj (setField fields "name" (JVal.str projectName)), 2⟩, ?_, ?_, ?_, ?_, ?_, ?_⟩
  · rw [updatePackageJson, h]
  · exact lookupFile_writeFile_self _ h
  · exact fieldLookup_setField_self fields "name" (JVal.str projectName)
  · intro k hk
    exact fieldLookup_setField_ne fields "name" k (JVal.str projectName) hk
  · intro q hq
    exact lookupFile_writeFile_ne _ hq
  · rfl

/-- Witness for C8 on a concrete two-field manifest. -/
theorem updatePackageJson_spec_witness :
    lookupFile ⟨[["w", "demo"]], [(["w", "demo", "package.json"],
        ⟨JVal.obj [("name", JVal.str "template"), ("version", JVal.str "1.0.0")], 4⟩)]⟩
      (["w", "demo"] ++ ["package.json"]) =
      some ⟨JVal.obj [("name", JVal.str "template"), ("version", JVal.str "1.0.0")], 4⟩ ∧
    ∃ fs2, updatePackageJson ⟨[["w", "demo"]], [(["w", "demo", "package.json"],
        ⟨JVal.obj [("name", JVal.str "template"), ("version", JVal.str "1.0.0")], 4⟩)]⟩
        ["w", "demo"] "my-app" = some fs2 ∧
      lookupFile fs2 (["w", "demo"] ++ ["package.json"]) =
        some ⟨JVal.obj (setField [("name", JVal.str "template"), ("version", JVal.str "1.0.0")]
          "name" (JVal.str "my-app")), 2⟩ ∧
      fieldLookup (setField [("name", JVal.str "template"), ("version", JVal.str "1.0.0")]
          "name" (JVal.str "my-app")) "name" = some (JVal.str "my-app") ∧
      (∀ k, k ≠ "name" →
        fieldLookup (setField [("name", JVal.str "template"), ("version", JVal.str "1.0.0")]
            "name" (JVal.str "my-app")) k =
          fieldLookup [("name", JVal.str "template"), ("version", JVal.str "1.0.0")] k) ∧
      (∀ q, q ≠ ["w", "demo"] ++ ["package.json"] →
        lookupFile fs2 q = lookupFile ⟨[["w", "demo"]], [(["w", "demo", "package.json"],
          ⟨JVal.obj [("name", JVal.str "template"), ("version", JVal.str "1.0.0")], 4⟩)]⟩ q) ∧
      fs2.dirs = [["w", "demo"]] :=
  ⟨rfl, updatePackageJson_spec _ ["w", "demo"] "my-app"
    [("name", JVal.str "template"), ("version", JVal.str "1.0.0")] 4 rfl⟩

/-! ### Behaviour of the orchestrator -/

theorem updatePackageJson_dirs {fs : FS} {dd : List String} {pn : String} {fs2 : FS}
    (h : updatePackageJson fs dd pn = some fs2) : fs2.dirs = fs.dirs := by
  rw [updatePackageJson] at h
  split at h
  · cases h
  · split at h
    · injection h with h
      rw [← h]
      rfl
    · injection h with h
      rw [← h]
      rfl
    · cases h

theorem noResidue_removeTree (fs : FS) (p : List String) :
    noResidue (removeTree fs p) p = true := by
  rw [noResidue, removeTree]
  simp only [Bool.and_eq_true, List.all_eq_true]
  constructor
  · intro q hq
    exact (List.mem_filter.mp hq).2
  · intro e he
    exact (List.mem_filter.mp he).2

theorem mem_dirs_pathExists {fs : FS} {p : List String} (h : p ∈ fs.dirs) :
    pathExists fs p = true := by
  rw [pathExists, Bool.or_eq_true]
  left
  exact List.elem_iff.mpr h

theorem cleanup_noResidue {fs : FS} {p : List String} (h : pathExists fs p = true) :
    noResidue (cleanupDest fs p) p = true := by
  rw [cleanupDest, if_pos h]
  exact noResidue_removeTree fs p

/-- C3: if the resolved destination already exists, `main` exits with code 1,
runs none of the copy, patch or install steps, and leaves the filesystem
exactly as it was. -/
theorem main_existing_dest (a : String) (ans : Answers) (orc : Oracle) (cwd : List String)
    (tpl : Template) (fs0 : FS)
    (hex : pathExists fs0 (cwd ++ [packageNameToDirName ans.packageName]) = true) :
    runMain (some a) ans orc cwd tpl fs0 = ⟨1, fs0, []⟩ := by
  rw [runMain]
  simp only [hex, if_true]

/-- Witness for C3: a run against a filesystem already holding `w/demo`. -/
theorem main_existing_dest_witness :
    pathExists ⟨[["w", "demo"]], []⟩ (["w"] ++ [packageNameToDirName "demo"]) = true ∧
      runMain (some "x") ⟨"demo", true⟩ ⟨true, [], [], ⟨0, [], []⟩⟩ ["w"] ⟨[], []⟩
        ⟨[["w", "demo"]], []⟩ = ⟨1, ⟨[["w", "demo"]], []⟩, []⟩ :=
  ⟨rfl, main_existing_dest "x" ⟨"demo", true⟩ ⟨true, [], [], ⟨0, [], []⟩⟩ ["w"] ⟨[], []⟩
    ⟨[["w", "demo"]], []⟩ rfl⟩

/-- C2: when the destination is fresh, the copy succeeds, the patch succeeds,
the install step runs and the installer exits with a nonzero code, `main`
exits with code 1 and leaves nothing at or below the destination directory. -/
theorem main_install_failure (a : String) (ans : Answers) (orc : Oracle) (cwd : List String)
    (tpl : Template) (fs0 : FS)
    (hdest : pathExists fs0 (cwd ++ [packageNameToDirName ans.packageName]) = false)
    (hcopy : orc.copyOk = true)
    (hpatch : (updatePackageJson
        (copyTree fs0 (cwd ++ [packageNameToDirName ans.packageName]) tpl)
        (cwd ++ [packageNameToDirName ans.packageName]) ans.packageName).isSome = true)
    (hinstall : ans.installDeps = true)
    (hfail : orc.install.exitCode ≠ 0) :
    (runMain (some a) ans orc cwd tpl fs0).exitCode = 1 ∧
      noResidue (runMain (some a) ans orc cwd tpl fs0).fs
        (cwd ++ [packageNameToDirName ans.packageName]) = true := by
  obtain ⟨fs2, hfs2⟩ := Option.isSome_iff_exists.mp hpatch
  have hbeq : (orc.install.exitCode == 0) = false := beq_eq_false_iff_ne.mpr hfail
  have hdd : (cwd ++ [packageNameToDirName ans.packageName]) ∈
      (copyTree fs0 (cwd ++ [packageNameToDirName ans.packageName]) tpl).dirs := by
    rw [copyTree]
    exact List.mem_append.mpr (Or.inr (List.mem_cons_self _ _))
  have hdd2 : (cwd ++ [packageNameToDirName ans.packageName]) ∈ fs2.dirs := by
    rw [updatePackageJson_dirs hfs2]
    exact hdd
  have hdd3 : (cwd ++ [packageNameToDirName ans.packageName]) ∈
      (addUnder fs2 (cwd ++ [packageNameToDirName ans.packageName])
        orc.install.createdDirs orc.install.createdFiles).dirs := by
    rw [addUnder]
    exact List.mem_append.mpr (Or.inl hdd2)
  rw [runMain]
  simp only [hdest, hcopy, hfs2, hinstall, hbeq, Bool.false_eq_true, if_false, if_true]
  exact ⟨trivial, cleanup_noResidue (mem_dirs_pathExists hdd3)⟩

/-- Witness for C2: a concrete run in which `npm install` exits with code 1. -/
theorem main_install_failure_witness :
    (updatePackageJson
        (copyTree ⟨[["w"]], []⟩ (["w"] ++ [packageNameToDirName "demo"])
          ⟨[["src"]], [(["package.json"], ⟨JVal.obj [("name", JVal.str "t")], 2⟩)]⟩)
        (["w"] ++ [packageNameToDirName "demo"]) "demo").isSome = true ∧
      ((runMain (some "x") ⟨"demo", true⟩
          ⟨true, [], [], ⟨1, [["node_modules"]],
            [(["node_modules", "left-pad", "package.json"], ⟨JVal.obj [], 2⟩)]⟩⟩
          ["w"] ⟨[["src"]], [(["package.json"], ⟨JVal.obj [("name", JVal.str "t")], 2⟩)]⟩
          ⟨[["w"]], []⟩).exitCode = 1 ∧
        noResidue (runMain (some "x") ⟨"demo", true⟩
          ⟨true, [], [], ⟨1, [["node_modules"]],
            [(["node_modules", "left-pad", "package.json"], ⟨JVal.obj [], 2⟩)]⟩⟩
          ["w"] ⟨[["src"]], [(["package.json"], ⟨JVal.obj [("name", JVal.str "t")], 2⟩)]⟩
          ⟨[["w"]], []⟩).fs (["w"] ++ [packageNameToDirName "demo"]) = true) :=
  ⟨rfl, main_install_failure "x" ⟨"demo", true⟩
    ⟨true, [], [], ⟨1, [["node_modules"]],
      [(["node_modules", "left-pad", "package.json"], ⟨JVal.obj [], 2⟩)]⟩⟩
    ["w"] ⟨[["src"]], [(["package.json"], ⟨JVal.obj [("name", JVal.str "t")], 2⟩)]⟩
    ⟨[["w"]], []⟩ rfl rfl rfl rfl (by decide)⟩
